import Mathlib

/-!
Shallow embedding of the integer number-theory and combinatorics utilities of
the xen-dev-utils repository (src/index.ts and src/combinations.ts), together
with theorems checking the specification's claims about them.

Conventions of the embedding:
* JavaScript numbers that the functions treat as integers are modelled as `ℤ`;
  `Math.floor(a / b)` on two integers is `Int.fdiv a b` (floor division).
* The `while` loop of `extendedEuclid` is modelled as a step function plus a
  fuel-bounded iterator; fuel `|b|` is proved sufficient (the remainder's
  absolute value strictly decreases), and running longer does not change the
  result once the remainder has reached zero, so the bounded iterator agrees
  with the unbounded loop.
* JavaScript code that can throw returns `Except JSError _`; values that can be
  non-finite (`Infinity`, `-Infinity`, `NaN`) are modelled symbolically.
-/

/-- Error kinds a JavaScript function of this library can throw. -/
inductive JSError where
  | invalidInput
  | divisionByZero
deriving DecidableEq

/-- Value produced by `Math.floor(a / b)` in JavaScript: an integer when the
division is by a nonzero integer, and `Infinity`, `-Infinity` or `NaN` when
dividing by zero. -/
inductive JSFloorValue where
  | val (n : ℤ)
  | posInf
  | negInf
  | nan
deriving DecidableEq

/-- Embedding of `div(a, b) = Math.floor(a / b)` from src/index.ts for integer
arguments.  JavaScript division never throws: `a / 0` is `Infinity` for
`a > 0`, `-Infinity` for `a < 0` and `NaN` for `a = 0`, and `Math.floor` maps
each of these to itself.  For `b ≠ 0` the result is the floor of the exact
quotient, `Int.fdiv a b`. -/
def div (a b : ℤ) : Except JSError JSFloorValue :=
  if b = 0 then
    if 0 < a then .ok .posInf
    else if a < 0 then .ok .negInf
    else .ok .nan
  else .ok (.val (Int.fdiv a b))

/-- Result record of `extendedEuclid` (the `ExtendedEuclid` type of
src/index.ts). -/
structure ExtendedEuclid where
  coefA : ℤ
  coefB : ℤ
  gcd : ℤ
  quotientA : ℤ
  quotientB : ℤ
deriving DecidableEq

/-- State of the `while` loop of `extendedEuclid`: the three recurrence pairs
`[rOld, r]`, `[sOld, s]`, `[tOld, t]`. -/
structure EState where
  rOld : ℤ
  r : ℤ
  sOld : ℤ
  s : ℤ
  tOld : ℤ
  t : ℤ
deriving DecidableEq

/-- One iteration of the loop body of `extendedEuclid`:
`quotient = div(rOld, r)` (floor division, only evaluated when `r ≠ 0`),
then the simultaneous updates
`[rOld, r] = [r, rOld - quotient * r]` and likewise for `s` and `t`. -/
def euclidStep (st : EState) : EState :=
  let quotient := Int.fdiv st.rOld st.r
  { rOld := st.r, r := st.rOld - quotient * st.r
    sOld := st.s, s := st.sOld - quotient * st.s
    tOld := st.t, t := st.tOld - quotient * st.t }

/-- Fuel-bounded iteration of `euclidStep`, stopping as soon as `r = 0`
(the loop guard `while (r !== 0)`). -/
def euclidRun : ℕ → EState → EState
  | 0, st => st
  | n + 1, st => if st.r = 0 then st else euclidRun n (euclidStep st)

/-- Initial loop state of `extendedEuclid(a, b)`:
`[rOld, r] = [a, b]`, `[sOld, s] = [1, 0]`, `[tOld, t] = [0, 1]`. -/
def euclidInit (a b : ℤ) : EState :=
  { rOld := a, r := b, sOld := 1, s := 0, tOld := 0, t := 1 }

/-- Embedding of `extendedEuclid(a, b)` from src/index.ts for integer (non-NaN)
arguments: run the loop from `euclidInit a b` and return
`{coefA: sOld, coefB: tOld, gcd: rOld, quotientA: t, quotientB: Math.abs(s)}`.
Fuel `|b|` suffices: see `euclidRun_r_eq_zero` and `euclidRun_stable`. -/
def extendedEuclid (a b : ℤ) : ExtendedEuclid :=
  let st := euclidRun b.natAbs (euclidInit a b)
  { coefA := st.sOld, coefB := st.tOld, gcd := st.rOld, quotientA := st.t, quotientB := |st.s| }

/-- Possible arguments of `extendedEuclid` in JavaScript: an integer or `NaN`
(the function begins with an `isNaN` check). -/
inductive JSIntArg where
  | int (n : ℤ)
  | nan
deriving DecidableEq

/-- Embedding of `extendedEuclid` including its error behaviour:
`if (isNaN(a) || isNaN(b)) throw new Error('Invalid input')`, otherwise the
pure algorithm runs (it contains no other `throw`). -/
def extendedEuclidJS (a b : JSIntArg) : Except JSError ExtendedEuclid :=
  match a, b with
  | .nan, _ => .error .invalidInput
  | _, .nan => .error .invalidInput
  | .int a, .int b => .ok (extendedEuclid a b)

/-- Embedding of `iteratedEuclid`'s `for` loop from src/index.ts: state is the
accumulator `a` and the coefficient list built so far; each parameter `p`
multiplies every stored coefficient by `ee.coefA` and appends `ee.coefB`, and
replaces `a` by `ee.gcd`. Returns the final `(a, coefs)`. -/
def iterLoop : ℤ → List ℤ → List ℤ → ℤ × List ℤ
  | a, coefs, [] => (a, coefs)
  | a, coefs, p :: rest =>
      let ee := extendedEuclid a p
      iterLoop ee.gcd (coefs.map (fun c => c * ee.coefA) ++ [ee.coefB]) rest

/-- Embedding of `iteratedEuclid(params)` from src/index.ts: the first
parameter initializes `a` with coefficient `1`; an empty parameter list
returns an empty coefficient list. -/
def iteratedEuclid : List ℤ → List ℤ
  | [] => []
  | p :: rest => (iterLoop p [1] rest).2

/-- Weighted sum `sum(seq[i] * coef[i])` of a sequence against a coefficient
list (the Bézout combination the specification speaks about). -/
def weightedSum (seq coefs : List ℤ) : ℤ :=
  (List.zipWith (fun x c => x * c) seq coefs).sum

/-- Greatest common divisor of a list of integers (the mathematical,
non-negative gcd the specification's `gcd(seq)` denotes). -/
def listGcd : List ℤ → ℕ
  | [] => 0
  | x :: rest => Int.gcd x (listGcd rest)

/-- Modelled from the spec: the helper `mmod` imported by src/index.ts from
the repository's fraction module, whose code is not part of the given sources.
The spec describes it as mathematical modulo — the result has the same sign as
the modulus, not a truncating remainder — so `mmod a b = a - b * ⌊a / b⌋`.
Real-valued quantities (cents) are modelled as `ℚ`. -/
def mmod (a b : ℚ) : ℚ :=
  a - b * ⌊a / b⌋

/-- Embedding of `circleDifference(a, b, equaveCents)` from src/index.ts:
`half = 0.5 * equaveCents; return mmod(a - b + half, equaveCents) - half`.
The source gives `equaveCents` the default value `1200.0`; the claims treat it
as an explicit argument. -/
def circleDifference (a b equaveCents : ℚ) : ℚ :=
  let half := (1 / 2 : ℚ) * equaveCents
  mmod (a - b + half) equaveCents - half

/-- Embedding of `circleDistance(a, b, equaveCents)` from src/index.ts:
`Math.abs(circleDifference(a, b, equaveCents))`. -/
def circleDistance (a b equaveCents : ℚ) : ℚ :=
  |circleDifference a b equaveCents|

/-- Embedding of `kCombinations(set, k)` from src/combinations.ts, with an
explicit fuel argument bounding the recursion depth (the source recurses on
the strictly shorter list `set.slice(i + 1)`; `kCombinations` below passes
fuel `set.length`, which suffices, and `kCombFuel_congr` shows any
sufficient fuel gives the same result).  The body mirrors the source:
`k > set.length` or `k <= 0` gives `[]`; `k == set.length` gives `[set]`;
`k == 1` gives the singletons; otherwise for each `i` up to
`set.length - k + 1` the element `set.slice(i, i + 1)` is prepended to every
`(k-1)`-combination of `set.slice(i + 1)`. -/
def kCombFuel {α : Type u} : ℕ → List α → ℤ → List (List α)
  | 0, _, _ => []
  | fuel + 1, s, k =>
      if k > (s.length : ℤ) ∨ k ≤ 0 then []
      else if k = (s.length : ℤ) then [s]
      else if k = 1 then s.map (fun x => [x])
      else
        (List.range ((s.length : ℤ) - k + 1).toNat).flatMap (fun i =>
          (kCombFuel fuel (s.drop (i + 1)) (k - 1)).map
            (fun tc => (s.drop i).take 1 ++ tc))

/-- Embedding of `kCombinations(set, k)` from src/combinations.ts. -/
def kCombinations {α : Type u} (s : List α) (k : ℤ) : List (List α) :=
  kCombFuel s.length s k

/-- Embedding of `combinations(set)` from src/combinations.ts: concatenate the
`k`-combinations for `k = 1 .. set.length`. -/
def combinations {α : Type u} (s : List α) : List (List α) :=
  (List.range s.length).flatMap (fun i => kCombinations s ((i : ℤ) + 1))

/-! ### Facts about floor division and its remainder -/

theorem fdiv_neg_neg (a b : ℤ) : Int.fdiv (-a) (-b) = Int.fdiv a b := by
  rcases eq_or_ne b 0 with rfl | hb
  · rw [neg_zero, Int.fdiv_zero, Int.fdiv_zero]
  · match a, b, hb with
    | .ofNat 0, b, _ =>
        rw [show -(Int.ofNat 0) = 0 from rfl, show (Int.ofNat 0 : ℤ) = 0 from rfl,
          Int.zero_fdiv, Int.zero_fdiv]
    | .ofNat (m + 1), .ofNat (n + 1), _ => rfl
    | .ofNat (m + 1), .negSucc n, _ => rfl
    | .negSucc m, .ofNat (n + 1), _ => rfl
    | .negSucc m, .negSucc n, _ => rfl
    | .ofNat (m + 1), .ofNat 0, h => exact absurd rfl h
    | .negSucc m, .ofNat 0, h => exact absurd rfl h

theorem fmod_neg_neg (a b : ℤ) : Int.fmod (-a) (-b) = -Int.fmod a b := by
  rw [Int.fmod_def, Int.fmod_def, fdiv_neg_neg]
  ring

/-- For a negative divisor the floor remainder lies in `(b, 0]`. -/
theorem fmod_neg_bounds (a : ℤ) {b : ℤ} (hb : b < 0) :
    b < Int.fmod a b ∧ Int.fmod a b ≤ 0 := by
  have h1 : 0 ≤ Int.fmod (-a) (-b) := Int.fmod_nonneg' (-a) (by omega)
  have h2 : Int.fmod (-a) (-b) < -b := Int.fmod_lt_of_pos (-a) (by omega)
  rw [fmod_neg_neg] at h1 h2
  omega

/-- The floor remainder is strictly smaller than the divisor in absolute
value; this is the measure that makes the Euclidean loop terminate. -/
theorem fmod_natAbs_lt (a : ℤ) {b : ℤ} (hb : b ≠ 0) :
    (Int.fmod a b).natAbs < b.natAbs := by
  rcases lt_or_gt_of_ne hb with h | h
  · have := fmod_neg_bounds a h
    omega
  · have h1 : 0 ≤ Int.fmod a b := Int.fmod_nonneg' a h
    have h2 : Int.fmod a b < b := Int.fmod_lt_of_pos a h
    omega

/-- Floor division of integers is the floor of the exact rational quotient:
this is what distinguishes `Math.floor(a / b)` from truncating division. -/
theorem fdiv_eq_rat_floor (a : ℤ) {b : ℤ} (hb : b ≠ 0) :
    Int.fdiv a b = ⌊(a : ℚ) / (b : ℚ)⌋ := by
  have key : ∀ c d : ℤ, 0 < d → Int.fdiv c d = ⌊(c : ℚ) / (d : ℚ)⌋ := by
    intro c d hd
    have hcast : (d.toNat : ℤ) = d := Int.toNat_of_nonneg hd.le
    have h := Rat.floor_intCast_div_natCast c d.toNat
    have hc : ((d.toNat : ℕ) : ℚ) = (d : ℚ) := by
      exact_mod_cast congrArg (fun z : ℤ => (z : ℚ)) hcast
    rw [hc, hcast] at h
    rw [Int.fdiv_eq_ediv c hd.le, h]
  rcases lt_or_gt_of_ne hb with h | h
  · have hkey := key (-a) (-b) (by omega)
    rw [fdiv_neg_neg] at hkey
    rw [hkey]
    congr 1
    push_cast
    rw [neg_div_neg_eq]
  · exact key a b h

/-! ### Behaviour of the Euclidean loop -/

/-- The new remainder computed by one loop iteration is the floor remainder of
the previous pair. -/
theorem euclidStep_r (st : EState) : (euclidStep st).r = Int.fmod st.rOld st.r := by
  simp only [euclidStep, Int.fmod_def]
  ring

theorem euclidStep_rOld (st : EState) : (euclidStep st).rOld = st.r := rfl

/-- Once the remainder is zero, iterating the loop changes nothing (the guard
`while (r !== 0)` fails immediately). -/
theorem euclidRun_fixed : ∀ (n : ℕ) (st : EState), st.r = 0 → euclidRun n st = st
  | 0, _, _ => rfl
  | n + 1, st, h => by simp [euclidRun, h]

/-- Splitting the fuel of the loop iterator. -/
theorem euclidRun_add : ∀ (n m : ℕ) (st : EState),
    euclidRun (n + m) st = euclidRun m (euclidRun n st)
  | 0, m, st => by rw [Nat.zero_add]; rfl
  | n + 1, m, st => by
      by_cases h : st.r = 0
      · rw [show n + 1 + m = (n + m) + 1 from by omega]
        simp only [euclidRun, h, if_true]
        exact (euclidRun_fixed m st h).symm
      · rw [show n + 1 + m = (n + m) + 1 from by omega]
        simp only [euclidRun, h, if_false]
        exact euclidRun_add n m (euclidStep st)

/-- Fuel `|r|` always suffices: the loop reaches remainder zero because the
absolute value of the remainder strictly decreases at every iteration. -/
theorem euclidRun_r_eq_zero : ∀ (n : ℕ) (st : EState), st.r.natAbs ≤ n →
    (euclidRun n st).r = 0
  | 0, st, h => by
      simp only [euclidRun]
      omega
  | n + 1, st, h => by
      by_cases hr : st.r = 0
      · simp [euclidRun, hr]
      · simp only [euclidRun, hr, if_false]
        apply euclidRun_r_eq_zero n
        have := fmod_natAbs_lt st.rOld hr
        rw [← euclidStep_r] at this
        omega

/-- Running the loop with any fuel at least `|r|` gives the same result as
with fuel exactly `|r|`: the fuel-bounded iterator agrees with the unbounded
`while` loop of the source. -/
theorem euclidRun_stable (m : ℕ) (st : EState) (hm : st.r.natAbs ≤ m) :
    euclidRun m st = euclidRun st.r.natAbs st := by
  have h0 : (euclidRun st.r.natAbs st).r = 0 := euclidRun_r_eq_zero _ st le_rfl
  rw [show m = st.r.natAbs + (m - st.r.natAbs) from by omega, euclidRun_add,
    euclidRun_fixed _ _ h0]

/-- The Bézout relations `a*sOld + b*tOld = rOld` and `a*s + b*t = r` are loop
invariants. -/
theorem euclidRun_bezout (a b : ℤ) : ∀ (n : ℕ) (st : EState),
    a * st.sOld + b * st.tOld = st.rOld → a * st.s + b * st.t = st.r →
    a * (euclidRun n st).sOld + b * (euclidRun n st).tOld = (euclidRun n st).rOld ∧
      a * (euclidRun n st).s + b * (euclidRun n st).t = (euclidRun n st).r
  | 0, st, h1, h2 => ⟨h1, h2⟩
  | n + 1, st, h1, h2 => by
      by_cases hr : st.r = 0
      · simpa [euclidRun, hr] using And.intro h1 h2
      · simp only [euclidRun, hr, if_false]
        apply euclidRun_bezout a b n (euclidStep st)
        · exact h2
        · simp only [euclidStep]
          linear_combination h1 - st.rOld.fdiv st.r * h2

/-- If the loop has reached remainder zero, its final `rOld` divides both
components of the starting state (common divisors are preserved backwards
through the iteration). -/
theorem euclidRun_dvd : ∀ (n : ℕ) (st : EState), (euclidRun n st).r = 0 →
    (euclidRun n st).rOld ∣ st.rOld ∧ (euclidRun n st).rOld ∣ st.r
  | 0, st, h => ⟨dvd_rfl, h ▸ dvd_zero _⟩
  | n + 1, st, h => by
      by_cases hr : st.r = 0
      · simp only [euclidRun, hr, if_true]
        exact ⟨dvd_rfl, hr ▸ dvd_zero _⟩
      · simp only [euclidRun, hr, if_false] at h ⊢
        obtain ⟨d1, d2⟩ := euclidRun_dvd n (euclidStep st) h
        rw [euclidStep_rOld] at d1
        refine ⟨?_, d1⟩
        have : st.rOld = (euclidStep st).r + Int.fdiv st.rOld st.r * st.r := by
          simp only [euclidStep]
          ring
        rw [this]
        exact dvd_add d2 (Dvd.dvd.mul_left d1 _)

/-- Positivity is a loop invariant: from a state with `rOld > 0` and `r ≥ 0`
the loop ends with a positive `rOld`. -/
theorem euclidRun_pos : ∀ (n : ℕ) (st : EState), 0 < st.rOld → 0 ≤ st.r →
    0 < (euclidRun n st).rOld ∧ 0 ≤ (euclidRun n st).r
  | 0, st, h1, h2 => ⟨h1, h2⟩
  | n + 1, st, h1, h2 => by
      by_cases hr : st.r = 0
      · simpa [euclidRun, hr] using And.intro h1 h2
      · simp only [euclidRun, hr, if_false]
        apply euclidRun_pos n (euclidStep st)
        · rw [euclidStep_rOld]
          omega
        · rw [euclidStep_r]
          exact Int.fmod_nonneg' st.rOld (by omega)

/-- Negativity is likewise a loop invariant: from a state with `rOld < 0` and
`r ≤ 0` the loop ends with a negative `rOld`. -/
theorem euclidRun_negative : ∀ (n : ℕ) (st : EState), st.rOld < 0 → st.r ≤ 0 →
    (euclidRun n st).rOld < 0 ∧ (euclidRun n st).r ≤ 0
  | 0, st, h1, h2 => ⟨h1, h2⟩
  | n + 1, st, h1, h2 => by
      by_cases hr : st.r = 0
      · simpa [euclidRun, hr] using And.intro h1 h2
      · simp only [euclidRun, hr, if_false]
        apply euclidRun_negative n (euclidStep st)
        · rw [euclidStep_rOld]
          omega
        · rw [euclidStep_r]
          exact (fmod_neg_bounds st.rOld (by omega)).2

/-! ### Derived facts about extendedEuclid -/

theorem euclidRun_succ_of_ne (n : ℕ) (st : EState) (h : st.r ≠ 0) :
    euclidRun (n + 1) st = euclidRun n (euclidStep st) := by
  simp [euclidRun, h]

/-- The result record of `extendedEuclid`, written via the final loop state. -/
theorem extendedEuclid_eq (a b : ℤ) :
    extendedEuclid a b =
      { coefA := (euclidRun b.natAbs (euclidInit a b)).sOld,
        coefB := (euclidRun b.natAbs (euclidInit a b)).tOld,
        gcd := (euclidRun b.natAbs (euclidInit a b)).rOld,
        quotientA := (euclidRun b.natAbs (euclidInit a b)).t,
        quotientB := |(euclidRun b.natAbs (euclidInit a b)).s| } := rfl

/-- The loop of `extendedEuclid` has reached remainder zero when its fuel
`|b|` is spent. -/
theorem extendedEuclid_final_r (a b : ℤ) :
    (euclidRun b.natAbs (euclidInit a b)).r = 0 :=
  euclidRun_r_eq_zero b.natAbs (euclidInit a b) le_rfl

theorem extendedEuclid_bezout_eq (a b : ℤ) :
    a * (extendedEuclid a b).coefA + b * (extendedEuclid a b).coefB =
      (extendedEuclid a b).gcd := by
  have h := euclidRun_bezout a b b.natAbs (euclidInit a b)
    (by simp [euclidInit]) (by simp [euclidInit])
  simpa only [extendedEuclid_eq] using h.1

theorem extendedEuclid_dvd_left_right (a b : ℤ) :
    (extendedEuclid a b).gcd ∣ a ∧ (extendedEuclid a b).gcd ∣ b := by
  have h := euclidRun_dvd b.natAbs (euclidInit a b) (extendedEuclid_final_r a b)
  simp only [extendedEuclid_eq]
  exact h

/-- The absolute value of the returned `gcd` field is the mathematical gcd of
the inputs. -/
theorem extendedEuclid_gcd_natAbs (a b : ℤ) :
    (extendedEuclid a b).gcd.natAbs = Int.gcd a b := by
  have hd := extendedEuclid_dvd_left_right a b
  have hb := extendedEuclid_bezout_eq a b
  have h1 : (extendedEuclid a b).gcd ∣ (Int.gcd a b : ℤ) := Int.dvd_gcd hd.1 hd.2
  have h2 : (Int.gcd a b : ℤ) ∣ (extendedEuclid a b).gcd := by
    rw [← hb]
    exact dvd_add (Dvd.dvd.mul_right Int.gcd_dvd_left _)
      (Dvd.dvd.mul_right Int.gcd_dvd_right _)
  have h1' := Int.natAbs_dvd_natAbs.mpr h1
  have h2' := Int.natAbs_dvd_natAbs.mpr h2
  simp only [Int.natAbs_ofNat] at h1' h2'
  exact Nat.dvd_antisymm h1' h2'

/-- With a positive second argument the returned `gcd` field is positive. -/
theorem extendedEuclid_gcd_of_pos (a : ℤ) {b : ℤ} (hb : 0 < b) :
    0 < (extendedEuclid a b).gcd := by
  obtain ⟨k, hk⟩ : ∃ k, b.natAbs = k + 1 := ⟨b.natAbs - 1, by omega⟩
  have hne : (euclidInit a b).r ≠ 0 := by
    show b ≠ 0
    omega
  simp only [extendedEuclid_eq]
  rw [hk, euclidRun_succ_of_ne k _ hne]
  refine (euclidRun_pos k (euclidStep (euclidInit a b)) ?_ ?_).1
  · rw [euclidStep_rOld]
    exact hb
  · rw [euclidStep_r]
    exact Int.fmod_nonneg' _ (show (0 : ℤ) < (euclidInit a b).r from hb)

/-- With a negative second argument the returned `gcd` field is negative. -/
theorem extendedEuclid_gcd_of_neg (a : ℤ) {b : ℤ} (hb : b < 0) :
    (extendedEuclid a b).gcd < 0 := by
  obtain ⟨k, hk⟩ : ∃ k, b.natAbs = k + 1 := ⟨b.natAbs - 1, by omega⟩
  have hne : (euclidInit a b).r ≠ 0 := by
    show b ≠ 0
    omega
  simp only [extendedEuclid_eq]
  rw [hk, euclidRun_succ_of_ne k _ hne]
  refine (euclidRun_negative k (euclidStep (euclidInit a b)) ?_ ?_).1
  · rw [euclidStep_rOld]
    exact hb
  · rw [euclidStep_r]
    exact (fmod_neg_bounds _ (show (euclidInit a b).r < 0 from hb)).2

/-- With second argument zero the loop does not run and the returned `gcd`
field is the first argument. -/
theorem extendedEuclid_gcd_of_zero (a : ℤ) : (extendedEuclid a 0).gcd = a := rfl

/-! ### Derived facts about iteratedEuclid -/

theorem weightedSum_nil_left (c : List ℤ) : weightedSum [] c = 0 := rfl

theorem weightedSum_cons (x y : ℤ) (s c : List ℤ) :
    weightedSum (x :: s) (y :: c) = x * y + weightedSum s c := rfl

theorem weightedSum_append : ∀ (s1 c1 : List ℤ), s1.length = c1.length →
    ∀ (s2 c2 : List ℤ),
    weightedSum (s1 ++ s2) (c1 ++ c2) = weightedSum s1 c1 + weightedSum s2 c2
  | [], [], _, s2, c2 => by simp [weightedSum]
  | [], _ :: _, h, _, _ => by simp at h
  | _ :: _, [], h, _, _ => by simp at h
  | x :: s1, y :: c1, h, s2, c2 => by
      rw [List.cons_append, List.cons_append, weightedSum_cons, weightedSum_cons,
        weightedSum_append s1 c1 (by simpa using h) s2 c2, add_assoc]

theorem weightedSum_map_mul : ∀ (s c : List ℤ) (m : ℤ),
    weightedSum s (c.map (fun x => x * m)) = weightedSum s c * m
  | [], _, _ => by simp [weightedSum]
  | _ :: _, [], _ => by simp [weightedSum]
  | x :: s, y :: c, m => by
      rw [List.map_cons, weightedSum_cons, weightedSum_cons, weightedSum_map_mul s c m]
      ring

theorem iterLoop_length : ∀ (rest : List ℤ) (a : ℤ) (coefs : List ℤ),
    (iterLoop a coefs rest).2.length = coefs.length + rest.length
  | [], _, _ => by simp [iterLoop]
  | p :: rest, a, coefs => by
      rw [iterLoop, iterLoop_length rest]
      simp
      omega

/-- Loop invariant of `iteratedEuclid`: if the coefficients accumulated so far
combine the already-consumed prefix into the accumulator `a`, the final
coefficients combine the whole sequence into the final accumulator. -/
theorem iterLoop_sum : ∀ (rest : List ℤ) (a : ℤ) (coefs pre : List ℤ),
    pre.length = coefs.length → weightedSum pre coefs = a →
    weightedSum (pre ++ rest) (iterLoop a coefs rest).2 = (iterLoop a coefs rest).1
  | [], a, coefs, pre, _, hsum => by
      rw [iterLoop, List.append_nil]
      exact hsum
  | p :: rest, a, coefs, pre, hlen, hsum => by
      rw [iterLoop]
      have hlen' : (pre ++ [p]).length =
          (coefs.map (fun c => c * (extendedEuclid a p).coefA) ++ [(extendedEuclid a p).coefB]).length := by
        simp [hlen]
      have hsum' : weightedSum (pre ++ [p])
          (coefs.map (fun c => c * (extendedEuclid a p).coefA) ++ [(extendedEuclid a p).coefB]) =
          (extendedEuclid a p).gcd := by
        rw [weightedSum_append pre _ (by simp [hlen]) [p] _, weightedSum_map_mul, hsum,
          weightedSum_cons, weightedSum_nil_left]
        have := extendedEuclid_bezout_eq a p
        linarith [this]
      have := iterLoop_sum rest (extendedEuclid a p).gcd
        (coefs.map (fun c => c * (extendedEuclid a p).coefA) ++ [(extendedEuclid a p).coefB])
        (pre ++ [p]) hlen' hsum'
      rw [List.append_assoc] at this
      simpa using this

/-- The accumulator of `iteratedEuclid`'s loop computes the gcd of all inputs
up to sign. -/
theorem iterLoop_gcd_natAbs : ∀ (rest : List ℤ) (a : ℤ) (coefs : List ℤ),
    (iterLoop a coefs rest).1.natAbs = listGcd (a :: rest)
  | [], a, coefs => by
      simp [iterLoop, listGcd, Int.gcd]
  | p :: rest, a, coefs => by
      rw [iterLoop,
        iterLoop_gcd_natAbs rest (extendedEuclid a p).gcd
          (coefs.map (fun c => c * (extendedEuclid a p).coefA) ++ [(extendedEuclid a p).coefB])]
      show listGcd ((extendedEuclid a p).gcd :: rest) = listGcd (a :: p :: rest)
      simp only [listGcd, Int.gcd, Int.natAbs_ofNat, extendedEuclid_gcd_natAbs a p]
      rw [Nat.gcd_assoc]

/-! ### Derived facts about the periodic distance helpers -/

theorem mmod_eq_mul_fract {b : ℚ} (hb : b ≠ 0) (a : ℚ) :
    mmod a b = b * Int.fract (a / b) := by
  rw [mmod, ← Int.self_sub_floor, mul_sub, mul_comm b (a / b), div_mul_cancel₀ a hb]

theorem mmod_bounds {b : ℚ} (hb : 0 < b) (a : ℚ) :
    0 ≤ mmod a b ∧ mmod a b < b := by
  rw [mmod_eq_mul_fract hb.ne' a]
  refine ⟨mul_nonneg hb.le (Int.fract_nonneg _), ?_⟩
  calc b * Int.fract (a / b) < b * 1 := mul_lt_mul_of_pos_left (Int.fract_lt_one _) hb
    _ = b := mul_one b

/-- The circular difference written through the fractional-part function. -/
theorem circleDifference_fract {p : ℚ} (hp : p ≠ 0) (a b : ℚ) :
    circleDifference a b p =
      p * Int.fract ((a - b + (1 / 2 : ℚ) * p) / p) - (1 / 2 : ℚ) * p := by
  show mmod (a - b + (1 / 2 : ℚ) * p) p - (1 / 2 : ℚ) * p = _
  rw [mmod_eq_mul_fract hp]

/-- Swapping the two pitches either negates the circular difference or leaves
it fixed at the antipode `-p/2`. -/
theorem circleDifference_swap {p : ℚ} (hp : 0 < p) (a b : ℚ) :
    circleDifference b a p = -circleDifference a b p ∨
      (circleDifference b a p = circleDifference a b p ∧
        circleDifference a b p = -((1 / 2 : ℚ) * p)) := by
  have hpne : p ≠ 0 := hp.ne'
  have hxy : (b - a + (1 / 2 : ℚ) * p) / p = -((a - b + (1 / 2 : ℚ) * p) / p) + 1 := by
    field_simp
    ring
  rw [circleDifference_fract hpne a b, circleDifference_fract hpne b a, hxy]
  by_cases h : Int.fract ((a - b + (1 / 2 : ℚ) * p) / p) = 0
  · refine Or.inr ⟨?_, ?_⟩
    · rw [Int.fract_add_one, Int.fract_neg_eq_zero.mpr h, h]
    · rw [h]
      ring
  · refine Or.inl ?_
    rw [Int.fract_add_one, Int.fract_neg h]
    ring

/-! ### Derived facts about kCombinations -/

theorem length_flatMap_sum {α : Type u} {β : Type v} (l : List α) (f : α → List β) :
    (l.flatMap f).length = (l.map (fun a => (f a).length)).sum := by
  rw [List.flatMap, List.length_flatten, List.map_map]
  rfl

theorem kCombFuel_nil {α : Type u} : ∀ (n : ℕ) (k : ℤ), kCombFuel n ([] : List α) k = []
  | 0, _ => rfl
  | _ + 1, k => by
      simp only [kCombFuel]
      split
      · rfl
      next hcond =>
        exfalso
        simp only [List.length_nil, Nat.cast_zero] at hcond
        omega

/-- The guard of `kCombinations`: out-of-range `k` gives no combinations. -/
theorem kCombFuel_guard {α : Type u} : ∀ (n : ℕ) (s : List α) (k : ℤ),
    k ≤ 0 ∨ (s.length : ℤ) < k → kCombFuel n s k = []
  | 0, _, _, _ => rfl
  | _ + 1, s, k, h => by
      simp only [kCombFuel]
      rw [if_pos (show k > (s.length : ℤ) ∨ k ≤ 0 by omega)]

/-- Any two sufficient fuels give the same result: the fuel-bounded embedding
agrees with the source's unbounded recursion. -/
theorem kCombFuel_congr {α : Type u} : ∀ (n m : ℕ) (s : List α) (k : ℤ),
    s.length ≤ n → s.length ≤ m → kCombFuel n s k = kCombFuel m s k
  | 0, m, s, k, hn, _ => by
      have hs : s = [] := List.length_eq_zero.mp (by omega)
      subst hs
      rw [kCombFuel_nil, kCombFuel_nil]
  | n + 1, 0, s, k, _, hm => by
      have hs : s = [] := List.length_eq_zero.mp (by omega)
      subst hs
      rw [kCombFuel_nil, kCombFuel_nil]
  | n + 1, m + 1, s, k, hn, hm => by
      simp only [kCombFuel]
      by_cases h1 : k > (s.length : ℤ) ∨ k ≤ 0
      · rw [if_pos h1, if_pos h1]
      · rw [if_neg h1, if_neg h1]
        by_cases h2 : k = (s.length : ℤ)
        · rw [if_pos h2, if_pos h2]
        · rw [if_neg h2, if_neg h2]
          by_cases h3 : k = 1
          · rw [if_pos h3, if_pos h3]
          · rw [if_neg h3, if_neg h3]
            refine congrArg (List.flatMap (List.range ((s.length : ℤ) - k + 1).toNat))
              (funext fun i => congrArg (List.map fun tc => (s.drop i).take 1 ++ tc) ?_)
            refine kCombFuel_congr n m (s.drop (i + 1)) (k - 1) ?_ ?_
            · simp only [List.length_drop]
              omega
            · simp only [List.length_drop]
              omega

/-- Every produced combination has length `k` and is a sublist of the input
(its elements appear in their original order). -/
theorem kCombFuel_mem {α : Type u} : ∀ (n : ℕ) (s : List α) (m : ℕ),
    1 ≤ m → m ≤ s.length → s.length ≤ n →
    ∀ c ∈ kCombFuel n s (m : ℤ), c.length = m ∧ c.Sublist s
  | 0, s, m, h1, h2, h3, c, hc => by
      exfalso
      omega
  | n + 1, s, m, h1, h2, h3, c, hc => by
      simp only [kCombFuel] at hc
      rw [if_neg (show ¬((m : ℤ) > (s.length : ℤ) ∨ (m : ℤ) ≤ 0) by omega)] at hc
      by_cases hm : (m : ℤ) = (s.length : ℤ)
      · rw [if_pos hm] at hc
        have hcs : c = s := by simpa using hc
        subst hcs
        have : m = c.length := by exact_mod_cast hm
        exact ⟨this.symm, List.Sublist.refl c⟩
      · rw [if_neg hm] at hc
        by_cases hm1 : (m : ℤ) = 1
        · rw [if_pos hm1] at hc
          obtain ⟨x, hx, rfl⟩ := List.mem_map.mp hc
          have hm1' : m = 1 := by exact_mod_cast hm1
          exact ⟨by simp [hm1'], List.singleton_sublist.mpr hx⟩
        · rw [if_neg hm1] at hc
          obtain ⟨i, hi, hc2⟩ := List.mem_flatMap.mp hc
          obtain ⟨tc, htc, rfl⟩ := List.mem_map.mp hc2
          have hiR : i < ((s.length : ℤ) - (m : ℤ) + 1).toNat := List.mem_range.mp hi
          have hmlen : m ≠ s.length := fun h => hm (by exact_mod_cast h)
          have hm1'' : m ≠ 1 := fun h => hm1 (by exact_mod_cast h)
          have hm2 : 2 ≤ m := by omega
          have hile : i ≤ s.length - m := by omega
          have hidx : i < s.length := by omega
          have hcast : (m : ℤ) - 1 = ((m - 1 : ℕ) : ℤ) := by omega
          rw [hcast] at htc
          obtain ⟨htclen, htcsub⟩ := kCombFuel_mem n (s.drop (i + 1)) (m - 1)
            (by omega)
            (by simp only [List.length_drop]; omega)
            (by simp only [List.length_drop]; omega)
            tc htc
          have hdropcons : s.drop i = s[i] :: s.drop (i + 1) :=
            List.drop_eq_getElem_cons hidx
          have hhead : (s.drop i).take 1 ++ tc = s[i] :: tc := by
            rw [hdropcons, List.take_succ_cons, List.take_zero]
            rfl
          rw [hhead]
          constructor
          · simp only [List.length_cons, htclen]
            omega
          · refine List.Sublist.trans (List.Sublist.cons₂ _ htcsub) ?_
            rw [← hdropcons]
            exact List.drop_sublist i s

/-- Hockey-stick style identity: summing `choose (len-1-i) (m-1)` over the
loop range of `kCombinations` gives `choose len m`. -/
theorem sum_range_choose_slide (m : ℕ) (h1 : 1 ≤ m) : ∀ (len : ℕ), m ≤ len →
    ((List.range (len - m + 1)).map (fun i => (len - 1 - i).choose (m - 1))).sum
      = len.choose m := by
  intro len h2
  induction len, h2 using Nat.le_induction with
  | base =>
      simp [Nat.sub_self, List.range_succ, Nat.choose_self]
  | succ len hle ih =>
      have hr : len + 1 - m + 1 = (len - m + 1) + 1 := by omega
      rw [hr, List.range_succ_eq_map, List.map_cons, List.sum_cons, List.map_map]
      have hfun : ((fun i => (len + 1 - 1 - i).choose (m - 1)) ∘ Nat.succ)
          = (fun i => (len - 1 - i).choose (m - 1)) := by
        funext i
        simp only [Function.comp]
        congr 1
        omega
      rw [hfun, ih]
      have h0 : len + 1 - 1 - 0 = len := by omega
      rw [h0]
      obtain ⟨m', rfl⟩ : ∃ m', m = m' + 1 := ⟨m - 1, by omega⟩
      simp only [Nat.add_sub_cancel]
      rw [Nat.choose_succ_succ' len m']

/-- The number of produced combinations is the binomial coefficient
`choose (s.length) m`. -/
theorem kCombFuel_length {α : Type u} : ∀ (n : ℕ) (s : List α) (m : ℕ),
    1 ≤ m → m ≤ s.length → s.length ≤ n →
    (kCombFuel n s (m : ℤ)).length = s.length.choose m
  | 0, s, m, h1, h2, h3 => by
      exfalso
      omega
  | n + 1, s, m, h1, h2, h3 => by
      simp only [kCombFuel]
      rw [if_neg (show ¬((m : ℤ) > (s.length : ℤ) ∨ (m : ℤ) ≤ 0) by omega)]
      by_cases hm : (m : ℤ) = (s.length : ℤ)
      · rw [if_pos hm]
        have hm' : m = s.length := by exact_mod_cast hm
        simp [hm', Nat.choose_self]
      · rw [if_neg hm]
        by_cases hm1 : (m : ℤ) = 1
        · rw [if_pos hm1]
          have hm1' : m = 1 := by exact_mod_cast hm1
          simp [hm1', Nat.choose_one_right]
        · rw [if_neg hm1]
          have hmlen : m ≠ s.length := fun h => hm (by exact_mod_cast h)
          have hm1'' : m ≠ 1 := fun h => hm1 (by exact_mod_cast h)
          have hm2 : 2 ≤ m := by omega
          have hcast : (m : ℤ) - 1 = ((m - 1 : ℕ) : ℤ) := by omega
          have hrange : ((s.length : ℤ) - (m : ℤ) + 1).toNat = s.length - m + 1 := by
            omega
          rw [length_flatMap_sum, hrange]
          have hmap : (List.range (s.length - m + 1)).map
              (fun i => ((kCombFuel n (s.drop (i + 1)) ((m : ℤ) - 1)).map
                (fun tc => (s.drop i).take 1 ++ tc)).length)
              = (List.range (s.length - m + 1)).map
                (fun i => (s.length - 1 - i).choose (m - 1)) := by
            refine List.map_congr_left fun i hi => ?_
            have hiR : i < s.length - m + 1 := List.mem_range.mp hi
            rw [List.length_map, hcast]
            rw [kCombFuel_length n (s.drop (i + 1)) (m - 1)
              (by omega)
              (by simp only [List.length_drop]; omega)
              (by simp only [List.length_drop]; omega)]
            simp only [List.length_drop]
            congr 1
            omega
          rw [hmap, sum_range_choose_slide m (by omega) s.length (by omega)]

/-- Sum of a function mapped over `List.range` as a `Finset.range` sum. -/
theorem list_sum_map_range (f : ℕ → ℕ) : ∀ (n : ℕ),
    ((List.range n).map f).sum = ∑ i ∈ Finset.range n, f i
  | 0 => rfl
  | n + 1 => by
      rw [List.range_succ, List.map_append, List.sum_append, Finset.sum_range_succ,
        list_sum_map_range f n]
      simp

/-- Summing all positive binomial coefficients: the number of non-empty
subsets of an `n`-element set. -/
theorem sum_choose_pos (n : ℕ) :
    ((List.range n).map (fun i => n.choose (i + 1))).sum = 2 ^ n - 1 := by
  rw [list_sum_map_range]
  have h := Nat.sum_range_choose n
  rw [Finset.sum_range_succ'] at h
  simp only [Nat.choose_zero_right] at h
  omega

/-! ### Claim theorems -/

/-- C1: for all integers a, b not both zero, `extendedEuclid(a, b)` satisfies
the Bézout identity `a*coefA + b*coefB = gcd` and the returned gcd divides
both a and b; in particular `extendedEuclid(240, 46)` returns gcd = 2 with
`240*coefA + 46*coefB = 2`. -/
theorem extendedEuclid_bezout_and_dvd :
    (∀ a b : ℤ, ¬(a = 0 ∧ b = 0) →
      a * (extendedEuclid a b).coefA + b * (extendedEuclid a b).coefB =
        (extendedEuclid a b).gcd ∧
      (extendedEuclid a b).gcd ∣ a ∧ (extendedEuclid a b).gcd ∣ b) ∧
    (extendedEuclid 240 46).gcd = 2 ∧
    240 * (extendedEuclid 240 46).coefA + 46 * (extendedEuclid 240 46).coefB = 2 := by
  refine ⟨fun a b _ => ⟨extendedEuclid_bezout_eq a b, extendedEuclid_dvd_left_right a b⟩,
    by decide, by decide⟩

/-- Witness for C1 at the concrete input (240, 46). -/
theorem extendedEuclid_bezout_and_dvd_witness :
    240 * (extendedEuclid 240 46).coefA + 46 * (extendedEuclid 240 46).coefB =
      (extendedEuclid 240 46).gcd ∧
    (extendedEuclid 240 46).gcd ∣ 240 ∧ (extendedEuclid 240 46).gcd ∣ 46 :=
  extendedEuclid_bezout_and_dvd.1 240 46 (by decide)

/-- C2 counterexample: `extendedEuclid(4, -6)`, an input pair that is not both
zero, returns gcd = -2, which is negative. -/
theorem extendedEuclid_gcd_negative_counterexample :
    ¬((4 : ℤ) = 0 ∧ (-6 : ℤ) = 0) ∧ (extendedEuclid 4 (-6)).gcd = -2 ∧
      ¬(0 ≤ (extendedEuclid 4 (-6)).gcd) := by
  refine ⟨by decide, by decide, by decide⟩

/-- C2 amended: the sign of the returned gcd field follows the second input:
it is positive for b > 0, equals a for b = 0, and is negative for b < 0 (so it
can be negative when an input is negative, contrary to the original claim). -/
theorem extendedEuclid_gcd_sign : ∀ a b : ℤ,
    (0 < b → 0 < (extendedEuclid a b).gcd) ∧
    (b = 0 → (extendedEuclid a b).gcd = a) ∧
    (b < 0 → (extendedEuclid a b).gcd < 0) := by
  intro a b
  refine ⟨fun h => extendedEuclid_gcd_of_pos a h, fun h => ?_,
    fun h => extendedEuclid_gcd_of_neg a h⟩
  subst h
  exact extendedEuclid_gcd_of_zero a

/-- Witness for C2's amended statement at concrete inputs. -/
theorem extendedEuclid_gcd_sign_witness :
    0 < (extendedEuclid 240 46).gcd ∧ (extendedEuclid (-7) 0).gcd = -7 ∧
      (extendedEuclid 4 (-6)).gcd < 0 :=
  ⟨(extendedEuclid_gcd_sign 240 46).1 (by decide),
   (extendedEuclid_gcd_sign (-7) 0).2.1 rfl,
   (extendedEuclid_gcd_sign 4 (-6)).2.2 (by decide)⟩

/-- C3 evaluation at the failing input (240, 46): the code returns
quotientA = -120 — the final value of the recurrence variable `t`, whose sign
depends on the parity of the number of loop iterations — while the claim (and
the function's own doc comment `result.quotientA = div(a, gcd(a, b))`)
requires floor(240 / 2) = 120.  quotientB = 23 = |46 / 2| does hold here. -/
theorem extendedEuclid_quotientA_bug :
    extendedEuclid 240 46 =
      { coefA := -9, coefB := 47, gcd := 2, quotientA := -120, quotientB := 23 } ∧
    Int.fdiv 240 (extendedEuclid 240 46).gcd = 120 ∧
    (extendedEuclid 240 46).quotientA ≠ Int.fdiv 240 (extendedEuclid 240 46).gcd := by
  refine ⟨by decide, by decide, by decide⟩

/-- C4 counterexample: for the sequence [4, -6] (which has a nonzero element)
the coefficients are [1, 1] and the weighted sum is -2, while the gcd of the
sequence is 2: the sum equals the gcd only up to sign. -/
theorem iteratedEuclid_sum_counterexample :
    iteratedEuclid [4, -6] = [1, 1] ∧
    weightedSum [4, -6] (iteratedEuclid [4, -6]) = -2 ∧
    listGcd [4, -6] = 2 ∧
    weightedSum [4, -6] (iteratedEuclid [4, -6]) ≠ (listGcd [4, -6] : ℤ) := by
  refine ⟨by decide, by decide, by decide, by decide⟩

/-- C4 amended: `iteratedEuclid` returns exactly one coefficient per input
element (and the empty list for the empty sequence), and the weighted sum of
the inputs by their coefficients equals the gcd of the sequence up to sign:
its absolute value is gcd(seq). -/
theorem iteratedEuclid_spec : ∀ seq : List ℤ,
    (iteratedEuclid seq).length = seq.length ∧
    (weightedSum seq (iteratedEuclid seq)).natAbs = listGcd seq ∧
    iteratedEuclid [] = [] := by
  intro seq
  refine ⟨?_, ?_, rfl⟩
  · match seq with
    | [] => rfl
    | p :: rest =>
        show (iterLoop p [1] rest).2.length = (p :: rest).length
        rw [iterLoop_length rest p [1]]
        simp only [List.length_cons, List.length_nil]
        omega
  · match seq with
    | [] => rfl
    | p :: rest =>
        show (weightedSum (p :: rest) (iterLoop p [1] rest).2).natAbs = _
        have hs := iterLoop_sum rest p [1] [p] rfl (by simp [weightedSum])
        rw [show ([p] : List ℤ) ++ rest = p :: rest from rfl] at hs
        rw [hs, iterLoop_gcd_natAbs rest p [1]]

/-- C5 counterexample: `div(1, 0)` does not fail with a DivisionByZero error:
JavaScript evaluates `1 / 0` to `Infinity` and `Math.floor(Infinity)` is
`Infinity`, so the call returns normally. -/
theorem div_zero_no_error_counterexample :
    div 1 0 = .ok .posInf ∧ div 1 0 ≠ .error .divisionByZero := by
  refine ⟨rfl, by simp [div]⟩

/-- C5 amended: for b ≠ 0 `div(a, b)` returns the true mathematical floor of
a/b (rounding toward negative infinity); for b = 0 it does not throw but
returns Infinity, -Infinity or NaN according to the sign of a. -/
theorem div_floor_spec : ∀ a b : ℤ,
    (b ≠ 0 → div a b = .ok (.val ⌊(a : ℚ) / (b : ℚ)⌋)) ∧
    (0 < a → div a 0 = .ok .posInf) ∧
    (a < 0 → div a 0 = .ok .negInf) ∧
    div 0 0 = .ok .nan := by
  intro a b
  refine ⟨fun hb => ?_, fun ha => ?_, fun ha => ?_, rfl⟩
  · rw [div, if_neg hb, fdiv_eq_rat_floor a hb]
  · simp [div, ha]
  · simp [div, ha, show ¬((0 : ℤ) < a) by omega]

/-- Witness for C5's amended statement at concrete inputs. -/
theorem div_floor_spec_witness :
    div 7 (-2) = .ok (.val ⌊((7 : ℤ) : ℚ) / (((-2 : ℤ)) : ℚ)⌋) ∧
    div 7 0 = .ok .posInf ∧ div (-7) 0 = .ok .negInf ∧ div 0 0 = .ok .nan :=
  ⟨(div_floor_spec 7 (-2)).1 (by decide), (div_floor_spec 7 0).2.1 (by decide),
   (div_floor_spec (-7) 0).2.2.1 (by decide), (div_floor_spec 0 0).2.2.2⟩

/-- C6: `extendedEuclid` throws InvalidInput exactly when an argument is NaN;
the degenerate input (0, 0) does not throw and returns gcd = 0. -/
theorem extendedEuclidJS_error_iff :
    (∀ x y : JSIntArg, (∃ e, extendedEuclidJS x y = .error e) ↔ (x = .nan ∨ y = .nan)) ∧
    extendedEuclidJS (.int 0) (.int 0) = .ok (extendedEuclid 0 0) ∧
    (extendedEuclid 0 0).gcd = 0 := by
  refine ⟨fun x y => ⟨?_, ?_⟩, rfl, rfl⟩
  · intro h
    obtain ⟨e, he⟩ := h
    match x, y with
    | .nan, _ => exact Or.inl rfl
    | .int _, .nan => exact Or.inr rfl
    | .int _, .int _ => simp [extendedEuclidJS] at he
  · intro h
    rcases h with h | h
    · subst h
      match y with
      | .nan => exact ⟨.invalidInput, rfl⟩
      | .int _ => exact ⟨.invalidInput, rfl⟩
    · subst h
      match x with
      | .nan => exact ⟨.invalidInput, rfl⟩
      | .int _ => exact ⟨.invalidInput, rfl⟩

/-- Witness for C6 at a concrete NaN input. -/
theorem extendedEuclidJS_error_iff_witness :
    ∃ e, extendedEuclidJS .nan (.int 3) = .error e :=
  (extendedEuclidJS_error_iff.1 .nan (.int 3)).mpr (Or.inl rfl)

/-- C7: for a positive period, `circleDifference(a, b, period)` computes
`((a - b + period/2) mod period) - period/2` with mathematical modulo (the
remainder is non-negative and below the period, so the result lies in
`[-period/2, period/2)`); concretely `circleDifference(1150, 50, 1200) = -100`. -/
theorem circleDifference_spec :
    (∀ a b p : ℚ, 0 < p →
      circleDifference a b p =
        (a - b + p / 2) - p * ⌊(a - b + p / 2) / p⌋ - p / 2 ∧
      -(p / 2) ≤ circleDifference a b p ∧ circleDifference a b p < p / 2) ∧
    circleDifference 1150 50 1200 = -100 := by
  constructor
  · intro a b p hp
    have hhalf : (1 / 2 : ℚ) * p = p / 2 := by ring
    have hb := mmod_bounds hp (a - b + (1 / 2 : ℚ) * p)
    rw [hhalf] at hb
    refine ⟨?_, ?_, ?_⟩
    · show (a - b + (1 / 2 : ℚ) * p) - p * ⌊(a - b + (1 / 2 : ℚ) * p) / p⌋ -
        (1 / 2 : ℚ) * p = _
      rw [hhalf]
    · show -(p / 2) ≤ mmod (a - b + (1 / 2 : ℚ) * p) p - (1 / 2 : ℚ) * p
      rw [hhalf]
      linarith [hb.1]
    · show mmod (a - b + (1 / 2 : ℚ) * p) p - (1 / 2 : ℚ) * p < p / 2
      rw [hhalf]
      linarith [hb.2]
  · simp only [circleDifference, mmod]
    have h : ⌊((1150 - 50 + 1 / 2 * 1200 : ℚ) / 1200)⌋ = 1 := by
      rw [Int.floor_eq_iff]
      norm_num
    rw [h]
    norm_num

/-- Witness for C7 at the concrete input (1150, 50, 1200). -/
theorem circleDifference_spec_witness :
    circleDifference 1150 50 1200 =
      ((1150 : ℚ) - 50 + 1200 / 2) - 1200 * ⌊((1150 : ℚ) - 50 + 1200 / 2) / 1200⌋ -
        1200 / 2 ∧
    -((1200 : ℚ) / 2) ≤ circleDifference 1150 50 1200 ∧
    circleDifference 1150 50 1200 < (1200 : ℚ) / 2 :=
  circleDifference_spec.1 1150 50 1200 (by norm_num)

/-- C8: for a positive period, `circleDistance` is symmetric in its first two
arguments and its value lies in the closed interval `[0, period/2]`. -/
theorem circleDistance_symm_bounds : ∀ a b p : ℚ, 0 < p →
    circleDistance a b p = circleDistance b a p ∧
    0 ≤ circleDistance a b p ∧ circleDistance a b p ≤ p / 2 := by
  intro a b p hp
  refine ⟨?_, abs_nonneg _, ?_⟩
  · show |circleDifference a b p| = |circleDifference b a p|
    rcases circleDifference_swap hp a b with h | ⟨h, _⟩
    · rw [h, abs_neg]
    · rw [h]
  · show |circleDifference a b p| ≤ p / 2
    have hb := mmod_bounds hp (a - b + (1 / 2 : ℚ) * p)
    have hd : circleDifference a b p =
        mmod (a - b + (1 / 2 : ℚ) * p) p - (1 / 2 : ℚ) * p := rfl
    rw [abs_le, hd]
    constructor
    · linarith [hb.1]
    · linarith [hb.2]

/-- Witness for C8 at the concrete input (1150, 50, 1200). -/
theorem circleDistance_symm_bounds_witness :
    circleDistance 1150 50 1200 = circleDistance 50 1150 1200 ∧
    0 ≤ circleDistance 1150 50 1200 ∧ circleDistance 1150 50 1200 ≤ (1200 : ℚ) / 2 :=
  circleDistance_symm_bounds 1150 50 1200 (by norm_num)

/-- C9: the loop of `extendedEuclid` terminates for every pair of integer
inputs: each iteration taken with a nonzero remainder strictly decreases the
remainder's absolute value, and from the initial state of `extendedEuclid(a,b)`
the remainder reaches zero within `|b|` iterations. -/
theorem euclid_loop_terminates :
    (∀ st : EState, st.r ≠ 0 → ((euclidStep st).r).natAbs < st.r.natAbs) ∧
    (∀ a b : ℤ, (euclidRun b.natAbs (euclidInit a b)).r = 0) := by
  constructor
  · intro st h
    rw [euclidStep_r]
    exact fmod_natAbs_lt st.rOld h
  · exact fun a b => extendedEuclid_final_r a b

/-- Witness for C9 at the concrete input (240, 46). -/
theorem euclid_loop_terminates_witness :
    ((euclidStep (euclidInit 240 46)).r).natAbs < ((euclidInit 240 46).r).natAbs ∧
    (euclidRun (46 : ℤ).natAbs (euclidInit 240 46)).r = 0 :=
  ⟨euclid_loop_terminates.1 (euclidInit 240 46) (by decide),
   euclid_loop_terminates.2 240 46⟩

/-- C10: `kCombinations(set, k)` is empty when k ≤ 0 or k > |set|; otherwise it
returns exactly `choose |set| k` combinations, each of length k and a sublist
of the input (elements in their original order); and `combinations(set)`
returns exactly `2^|set| - 1` non-empty combinations. -/
theorem kCombinations_spec : ∀ (α : Type) (s : List α) (k : ℤ),
    ((k ≤ 0 ∨ (s.length : ℤ) < k) → kCombinations s k = []) ∧
    (1 ≤ k → k ≤ (s.length : ℤ) →
      (kCombinations s k).length = s.length.choose k.toNat ∧
      ∀ c ∈ kCombinations s k, c.length = k.toNat ∧ c.Sublist s) ∧
    (combinations s).length = 2 ^ s.length - 1 := by
  intro α s k
  refine ⟨fun h => kCombFuel_guard s.length s k h, fun h1 h2 => ?_, ?_⟩
  · have hk : ((k.toNat : ℕ) : ℤ) = k := by omega
    rw [kCombinations, ← hk]
    exact ⟨kCombFuel_length s.length s k.toNat (by omega) (by omega) le_rfl,
      kCombFuel_mem s.length s k.toNat (by omega) (by omega) le_rfl⟩
  · rw [combinations, length_flatMap_sum]
    have hmap : (List.range s.length).map
        (fun i : ℕ => (kCombinations s ((i : ℤ) + 1)).length)
        = (List.range s.length).map (fun i => s.length.choose (i + 1)) := by
      refine List.map_congr_left fun i hi => ?_
      have hiR : i < s.length := List.mem_range.mp hi
      have hcast : ((i : ℤ) + 1) = (((i + 1 : ℕ)) : ℤ) := by omega
      rw [kCombinations, hcast]
      exact kCombFuel_length s.length s (i + 1) (by omega) (by omega) le_rfl
    rw [hmap, sum_choose_pos]

/-- Witness for C10 at the concrete input [1, 2, 3]. -/
theorem kCombinations_spec_witness :
    kCombinations ([1, 2, 3] : List ℕ) (-1) = [] ∧
    (kCombinations ([1, 2, 3] : List ℕ) 2).length =
      ([1, 2, 3] : List ℕ).length.choose (2 : ℤ).toNat ∧
    (combinations ([1, 2, 3] : List ℕ)).length = 2 ^ ([1, 2, 3] : List ℕ).length - 1 :=
  ⟨(kCombinations_spec ℕ [1, 2, 3] (-1)).1 (Or.inl (by decide)),
   ((kCombinations_spec ℕ [1, 2, 3] 2).2.1 (by decide) (by decide)).1,
   (kCombinations_spec ℕ [1, 2, 3] 2).2.2⟩
